import Mathlib

/-!
Shallow embedding of the pixelart-gen repository (Rust) in Lean 4, together
with theorems settling the frozen claims about its specification.

Source files embedded:
* `src/color.rs`   — Lab color arithmetic (`Color`)
* `src/image.rs`   — Lab image buffer (only what the claims need)
* `src/main.rs`    — optimizer: `SuperPixel`, `sp_refine`, `associate`,
  `normalize_probs`, `expand`, palette initialization in `main`
* `src/bin/pdfgen.rs` — pattern composer: page counting, tiling, symbol
  assignment, white/transparent pixel handling

`f64` values are modelled as real numbers; `u32` coordinates as naturals.
Rust panics (out-of-bounds indexing, `reduce` on an empty iterator,
`get_many_mut` with invalid indices) are modelled by `getD` with a default
value; the theorems carry the in-bounds hypotheses under which the source
cannot panic.
-/

set_option maxHeartbeats 1000000

namespace PixelartGen

/-- Lab color, `src/color.rs`: `pub struct Color(DVec3)` with x ↦ l, y ↦ a,
z ↦ b. -/
structure Color where
  l : ℝ
  a : ℝ
  b : ℝ

/-- `Color::BLACK = Color(DVec3::ZERO)` (`src/color.rs`). -/
def Color.BLACK : Color := ⟨0, 0, 0⟩

/-- `Color::distance` (`src/color.rs`): Euclidean distance of the two
`DVec3`s. -/
noncomputable def Color.distance (self rhs : Color) : ℝ :=
  Real.sqrt ((self.l - rhs.l) ^ 2 + (self.a - rhs.a) ^ 2 + (self.b - rhs.b) ^ 2)

/-- `Color::perturb` (`src/color.rs`): adds `delta.x` to `l` and `delta.y`
to BOTH `a` and `b` (the `b` line of the source reads `delta.y`). -/
def Color.perturb (self : Color) (delta : ℝ × ℝ) : Color :=
  ⟨self.l + delta.1, self.a + delta.2, self.b + delta.2⟩

/-- `impl Add for Color` (`src/color.rs`). -/
instance : Add Color := ⟨fun c d => ⟨c.l + d.l, c.a + d.a, c.b + d.b⟩⟩

/-- `impl Div<f64> for Color` (`src/color.rs`). -/
noncomputable instance : HDiv Color ℝ Color :=
  ⟨fun c r => ⟨c.l / r, c.a / r, c.b / r⟩⟩

/-- `impl Mul<f64> for Color` (`src/color.rs`). -/
noncomputable instance : HMul Color ℝ Color :=
  ⟨fun c r => ⟨c.l * r, c.a * r, c.b * r⟩⟩

/-- `SuperPixel` (`src/main.rs`).  The `img: &LabImage` reference field is
not stored here; functions that read the image take it as an explicit
argument of type `ℕ × ℕ → Color`.  The concurrent set `pixels` is modelled
as a list of coordinates. -/
structure SuperPixel where
  coord : ℕ × ℕ
  palette_color : Color
  probability : ℝ
  pixels : List (ℕ × ℕ)
  conditional_probability : List ℝ
  sp_color : Color
  original_coord : ℕ × ℕ
  original_color : Color
  n : ℝ
  m : ℝ

/-- Junk value standing for Rust's panic on an out-of-bounds superpixel
index. -/
def defaultSP : SuperPixel :=
  ⟨(0, 0), Color.BLACK, 0, [], [], Color.BLACK, (0, 0), Color.BLACK, 0, 0⟩

instance : Inhabited SuperPixel := ⟨defaultSP⟩

/-- `Color::condit_prob` (`src/color.rs`):
`probability * E.powf(-1.0 * sp.sp_color.distance(*self) / t)`. -/
noncomputable def Color.condit_prob (self : Color) (probability : ℝ)
    (sp : SuperPixel) (t : ℝ) : ℝ :=
  probability * Real.exp (-1 * sp.sp_color.distance self / t)

/-- The fold the first loop of `SuperPixel::normalize_probs` performs on
`palette_color` (`src/main.rs`): walking the conditional probabilities in
index order with their indices, `palette_color` is overwritten by
`palette[i].0` at every index `i` whose (still unnormalized) value equals
`hi`; the division by `denom` happens only at the end of each iteration,
after the comparison, so every comparison sees the unnormalized value. -/
noncomputable def selectColor (palette : List (Color × ℝ)) (hi : ℝ) :
    List ℝ → ℕ → Color → Color
  | [], _, acc => acc
  | p :: rest, i, acc =>
      selectColor palette hi rest (i + 1)
        (if p = hi then (palette.getD i (Color.BLACK, 0)).1 else acc)

/-- `SuperPixel::normalize_probs` (`src/main.rs`).  `denom` is the sum and
`hi` the maximum (Rust: `iter().reduce(f64::max)`, panicking on an empty
vector — modelled by the junk value 0) of the unnormalized conditional
probabilities.  The second loop of the source (over `clusters` and `k`)
only binds local variables — its one assignment to `palette_color` is
commented out — so it has no effect on the state; the `clusters` and `k`
parameters are kept for signature fidelity. -/
noncomputable def SuperPixel.normalize_probs (self : SuperPixel)
    (palette : List (Color × ℝ)) (clusters : List (ℕ × ℕ)) (k : ℕ) :
    SuperPixel :=
  let denom := self.conditional_probability.sum
  let hi : ℝ :=
    match self.conditional_probability with
    | [] => 0
    | p :: rest => rest.foldl max p
  { self with
    palette_color :=
      selectColor palette hi self.conditional_probability 0 self.palette_color
    conditional_probability :=
      self.conditional_probability.map (fun p => p / denom) }

/-- The unnormalized conditional probabilities the first pass of
`associate` (`src/main.rs`) writes into a superpixel: the conditional
vector is resized to the palette length and then every slot `i` is
overwritten with `palettes[i].0.condit_prob(palettes[i].1, sp, t)`; the net
effect of `resize` followed by the full overwrite is this `map` over the
palette. -/
noncomputable def unnormProbs (palettes : List (Color × ℝ))
    (sp : SuperPixel) (t : ℝ) : List ℝ :=
  palettes.map (fun pe => pe.1.condit_prob pe.2 sp t)

/-- `associate` (`src/main.rs`): each superpixel receives its
`unnormProbs` vector and runs `normalize_probs`; then every palette
marginal is reset and recomputed as `Σ_s P(i|s)·p(s)` over the updated
superpixels. -/
noncomputable def associate (super_pixels : List SuperPixel)
    (palettes : List (Color × ℝ)) (clusters : List (ℕ × ℕ)) (k : ℕ) (t : ℝ) :
    List SuperPixel × List (Color × ℝ) :=
  let sps := super_pixels.map (fun sp =>
    SuperPixel.normalize_probs
      { sp with conditional_probability := unnormProbs palettes sp t }
      palettes clusters k)
  let pals := palettes.enum.map (fun pe =>
    (pe.2.1,
      (sps.map (fun sp =>
        sp.conditional_probability.getD pe.1 0 * sp.probability)).sum))
  (sps, pals)

/-- Concrete superpixel for the C1 counterexample: mean color black. -/
noncomputable def spC1 : SuperPixel := { defaultSP with probability := 1 }

/-- Concrete palette for the C1 counterexample: two entries at equal
distance 1 from black, with equal marginals, but distinct colors. -/
noncomputable def palC1 : List (Color × ℝ) :=
  [(⟨1, 0, 0⟩, 1 / 2), (⟨-1, 0, 0⟩, 1 / 2)]

/-- The `delta` of `main` (`src/main.rs`): 1.5 times the first PCA
component, a 3-vector over the (L, a, b) axes. -/
def initDelta (component : ℝ × ℝ × ℝ) : ℝ × ℝ × ℝ :=
  (component.1 * 1.5, component.2.1 * 1.5, component.2.2 * 1.5)

/-- The initial palette of `main` (`src/main.rs`):
`vec![(init_color, 0.5), (init_color, 0.5)]` followed by
`palette[1].0.perturb(delta.truncate())`.  `DVec3::truncate` keeps the
first two components `(x, y)`, which on the (L, a, b) axes are the L and a
components. -/
def initPalette (init_color : Color) (component : ℝ × ℝ × ℝ) :
    List (Color × ℝ) :=
  let delta := initDelta component
  let truncated : ℝ × ℝ := (delta.1, delta.2.1)
  [(init_color, 0.5), (init_color.perturb truncated, 0.5)]

/-- Modelled from the spec wording of C2: the second palette entry differs
from `c₀` by the first principal axis projected to the (a,b) plane, scaled
by 1.5 — i.e. by the vector `(0, 1.5·v_a, 1.5·v_b)` in (L, a, b). -/
def initPaletteSpecClaim (init_color : Color) (component : ℝ × ℝ × ℝ) :
    List (Color × ℝ) :=
  [(init_color, 0.5),
   (⟨init_color.l, init_color.a + component.2.1 * 1.5,
     init_color.b + component.2.2 * 1.5⟩, 0.5)]

/-- `SuperPixel::cost` (`src/main.rs`):
`img[coord].distance(palette_color) + 45·(n/m)^0.5·‖coord − self.coord‖`.
The `img` reference field of the Rust struct is passed explicitly;
`powf(0.5)` on the nonnegative ratio `n/m` is the square root. -/
noncomputable def SuperPixel.cost (self : SuperPixel) (img : ℕ × ℕ → Color)
    (coord : ℕ × ℕ) : ℝ :=
  let c_diff := (img coord).distance self.palette_color
  let spatial_diff := Real.sqrt (((self.coord.1 : ℝ) - (coord.1 : ℝ)) ^ 2 +
    ((self.coord.2 : ℝ) - (coord.2 : ℝ)) ^ 2)
  c_diff + 45 * Real.sqrt (self.n / self.m) * spatial_diff

/-- The 3×3 window offsets `D_COORDS` of the per-input-pixel loop of
`sp_refine` (`src/main.rs`), in source order. -/
def D_COORDS : List (ℤ × ℤ) :=
  [(-1, -1), (-1, 0), (-1, 1), (0, -1), (0, 0), (0, 1), (1, -1), (1, 0),
   (1, 1)]

/-- One step of the argmin scan in `sp_refine`'s per-input-pixel loop
(`src/main.rs`).  The Rust initial state `(f64::MAX, UVec2::ZERO)` is
modelled as `none` (no candidate seen yet: every real-valued cost compares
below `f64::MAX`); a candidate replaces the state only when its cost is
strictly smaller, so ties keep the earlier candidate. -/
noncomputable def spRefineStep (super_pixels : List SuperPixel)
    (img : ℕ × ℕ → Color) (out_size : ℕ × ℕ) (coord sp_coord : ℕ × ℕ)
    (best : Option (ℝ × (ℕ × ℕ))) (d : ℤ × ℤ) : Option (ℝ × (ℕ × ℕ)) :=
  let n1 : ℤ := (sp_coord.1 : ℤ) + d.1
  let n2 : ℤ := (sp_coord.2 : ℤ) + d.2
  if 0 ≤ n1 ∧ 0 ≤ n2 ∧ n1 < (out_size.1 : ℤ) ∧ n2 < (out_size.2 : ℤ) then
    let n : ℕ × ℕ := (n1.toNat, n2.toNat)
    let new_cost :=
      (super_pixels.getD (n.1 + n.2 * out_size.1) defaultSP).cost img coord
    match best with
    | none => some (new_cost, n)
    | some (best_cost, best_coord) =>
        if new_cost < best_cost then some (new_cost, n)
        else some (best_cost, best_coord)
  else best

/-- The output-grid cell whose superpixel receives the input pixel at
`coord` in `sp_refine` (`src/main.rs`): candidate center
`(coord·out_size)/in_size`, argmin of `cost` over the in-bounds 3×3
window; the unreachable no-candidate case yields the Rust initialization
`UVec2::ZERO`. -/
noncomputable def bestCoord (super_pixels : List SuperPixel)
    (img : ℕ × ℕ → Color) (in_size out_size : ℕ × ℕ) (coord : ℕ × ℕ) :
    ℕ × ℕ :=
  let sp_coord : ℕ × ℕ :=
    (coord.1 * out_size.1 / in_size.1, coord.2 * out_size.2 / in_size.2)
  match D_COORDS.foldl
      (spRefineStep super_pixels img out_size coord sp_coord) none with
  | none => (0, 0)
  | some (_, n) => n

/-- The flat index `best_coord.x + best_coord.y * out_size.x` of the
superpixel whose `pixels` set receives `coord`. -/
noncomputable def chosenIdx (super_pixels : List SuperPixel)
    (img : ℕ × ℕ → Color) (in_size out_size : ℕ × ℕ) (coord : ℕ × ℕ) : ℕ :=
  let b := bestCoord super_pixels img in_size out_size coord
  b.1 + b.2 * out_size.1

/-- All input-pixel coordinates in the iteration order of `sp_refine`'s
parallel loop (`src/main.rs`): index `idx ↦ (idx % W, idx / W)`. -/
def gridCoords (size : ℕ × ℕ) : List (ℕ × ℕ) :=
  (List.range (size.1 * size.2)).map (fun idx => (idx % size.1, idx / size.1))

/-- The `owned_pixels` set of superpixel `i` after the assignment phase of
`sp_refine` (`src/main.rs`): the sets are cleared at the start of the pass
and each input coordinate is inserted into exactly the superpixel at
`chosenIdx`; the later position/color updates and the two smoothing passes
of `sp_refine` do not touch the sets. -/
noncomputable def ownedPixels (super_pixels : List SuperPixel)
    (img : ℕ × ℕ → Color) (in_size out_size : ℕ × ℕ) (i : ℕ) :
    List (ℕ × ℕ) :=
  (gridCoords in_size).filter
    (fun c => chosenIdx super_pixels img in_size out_size c = i)

/-- `EPSILON_CLUSTER` (`src/main.rs`): 0.25 = 1/4 (exactly representable
in `f64`). -/
noncomputable def EPSILON_CLUSTER : ℝ := 1 / 4

/-- The mutable state of `expand` (`src/main.rs`): the cluster list (pairs
of palette indices), the palette, and the super-cluster count `k`. -/
structure ExpandState where
  clusters : List (ℕ × ℕ)
  palette : List (Color × ℝ)
  k : ℕ

/-- The halved copy `*c1` of the split loop of `expand` (`src/main.rs`,
after `c1.1 /= 2.0`): palette entry `clusters[i].x` with its marginal
halved. -/
noncomputable def splitC1h (st : ExpandState) (i : ℕ) : Color × ℝ :=
  ((st.palette.getD (st.clusters.getD i (0, 0)).1 (Color.BLACK, 0)).1,
   (st.palette.getD (st.clusters.getD i (0, 0)).1 (Color.BLACK, 0)).2 / 2)

/-- The halved copy `*c2` of the split loop of `expand` (`src/main.rs`,
after `c2.1 /= 2.0`). -/
noncomputable def splitC2h (st : ExpandState) (i : ℕ) : Color × ℝ :=
  ((st.palette.getD (st.clusters.getD i (0, 0)).2 (Color.BLACK, 0)).1,
   (st.palette.getD (st.clusters.getD i (0, 0)).2 (Color.BLACK, 0)).2 / 2)

/-- The palette after a promotion in `expand` (`src/main.rs`): both
marginals halved in place (`get_many_mut` writes), then the two halved
entries pushed. -/
noncomputable def splitPal (st : ExpandState) (i : ℕ) : List (Color × ℝ) :=
  ((st.palette.set (st.clusters.getD i (0, 0)).1 (splitC1h st i)).set
      (st.clusters.getD i (0, 0)).2 (splitC2h st i))
    ++ [splitC1h st i, splitC2h st i]

/-- One iteration of the split loop of `expand` (`src/main.rs`): if the two
palette entries of cluster `i` are farther apart than `EPSILON_CLUSTER`,
the cluster is promoted — `k` is incremented, the palette becomes
`splitPal`, a new cluster `(clusters[i].y, len−1)` is appended, and cluster
`i` is re-keyed to `(clusters[i].x, len−2)`.  Rust's `get_many_mut` panics
on equal or out-of-bounds indices; indexing is modelled by `getD` and the
theorems carry validity hypotheses. -/
noncomputable def splitStep (st : ExpandState) (i : ℕ) : ExpandState :=
  if EPSILON_CLUSTER <
      ((st.palette.getD (st.clusters.getD i (0, 0)).1
          (Color.BLACK, 0)).1).distance
        ((st.palette.getD (st.clusters.getD i (0, 0)).2
          (Color.BLACK, 0)).1) then
    { clusters := (st.clusters.set i ((st.clusters.getD i (0, 0)).1,
        (splitPal st i).length - 2))
        ++ [((st.clusters.getD i (0, 0)).2, (splitPal st i).length - 1)],
      palette := splitPal st i,
      k := st.k + 1 }
  else st

/-- The split loop of `expand` (`src/main.rs`): `for i in
0..(*k).min(k_max)`, with the range taken from the value of `k` at loop
entry. -/
noncomputable def expandLoop (st : ExpandState) (k_max : ℕ) : ExpandState :=
  (List.range (min st.k k_max)).foldl splitStep st

/-- The else-branch loop of `expand` (`src/main.rs`): perturb the color of
palette entry `clusters[i].y` for each `i in 0..k`. -/
noncomputable def perturbLoop (palette : List (Color × ℝ))
    (clusters : List (ℕ × ℕ)) (k : ℕ) (delta : ℝ × ℝ) : List (Color × ℝ) :=
  (List.range k).foldl (fun pal i =>
    let cl := clusters.getD i (0, 0)
    let c := pal.getD cl.2 (Color.BLACK, 0)
    pal.set cl.2 (c.1.perturb delta, c.2)) palette

/-- `expand` (`src/main.rs`): run the split loop; then either collapse
(`k ≥ k_max`: rebuild the palette with one entry `((c_a+c_b)/2, π_a+π_b)`
per cluster and degenerate clusters `(i, 0)`) or perturb the second color
of every cluster by `delta`. -/
noncomputable def expand (st : ExpandState) (k_max : ℕ) (delta : ℝ × ℝ) :
    ExpandState :=
  let st2 := expandLoop st k_max
  if k_max ≤ st2.k then
    { clusters := (List.range st2.k).map (fun i => (i, 0)),
      palette := (List.range st2.k).map (fun i =>
        let cl := st2.clusters.getD i (0, 0)
        let c1 := st2.palette.getD cl.1 (Color.BLACK, 0)
        let c2 := st2.palette.getD cl.2 (Color.BLACK, 0)
        ((c1.1 + c2.1) / (2 : ℝ), c1.2 + c2.2)),
      k := st2.k }
  else
    { st2 with
        palette := perturbLoop st2.palette st2.clusters st2.k delta }

/-- Every cluster references two distinct in-bounds palette entries (the
precondition under which `get_many_mut` in `expand` cannot panic). -/
def validState (st : ExpandState) : Prop :=
  ∀ cl ∈ st.clusters, cl.1 ≠ cl.2 ∧
    cl.1 < st.palette.length ∧ cl.2 < st.palette.length

/-- The two `assert!`s guarding a promotion in `expand` (`src/main.rs`),
evaluated on the state right after `splitStep st i` (vacuous when the
distance condition does not fire): the marginals of the two entries of the
re-keyed cluster `i`, and of the appended last cluster, differ by less
than `EPSILON_CLUSTER`. -/
noncomputable def splitAssertOk (st : ExpandState) (i : ℕ) : Prop :=
  let cl := st.clusters.getD i (0, 0)
  let c1 := st.palette.getD cl.1 (Color.BLACK, 0)
  let c2 := st.palette.getD cl.2 (Color.BLACK, 0)
  if EPSILON_CLUSTER < c1.1.distance c2.1 then
    let st2 := splitStep st i
    let cli := st2.clusters.getD i (0, 0)
    let lst := st2.clusters.getD (st2.clusters.length - 1) (0, 0)
    |(st2.palette.getD cli.1 (Color.BLACK, 0)).2 -
      (st2.palette.getD cli.2 (Color.BLACK, 0)).2| < EPSILON_CLUSTER ∧
    |(st2.palette.getD lst.1 (Color.BLACK, 0)).2 -
      (st2.palette.getD lst.2 (Color.BLACK, 0)).2| < EPSILON_CLUSTER
  else True

/-- The assertions of every iteration of the split loop, threaded through
the evolving state. -/
noncomputable def loopAssertsOk : ExpandState → List ℕ → Prop
  | _, [] => True
  | st, i :: rest => splitAssertOk st i ∧ loopAssertsOk (splitStep st i) rest

/-- The fixed glyph alphabet `SYMBOLS` of the pattern composer
(`src/bin/pdfgen.rs`): 200 Unicode code points in source order. -/
def SYMBOLS : List Char :=
  ['A', 'B', 'C', 'D', 'E', 'F', 'G', 'H', 'I', 'J', 'K', 'L', 'M', 'N',
   'O', 'P', 'Q', 'R', 'S', 'T', 'U', 'V', 'W', 'X', 'Y', 'Z', 'a', 'b',
   'd', 'e', 'f', 'g', 'h', 'i', 'j', 'k', 'm', 'n', 'o', 'p', 'q', 'r',
   't', 'u', 'v', 'w', 'y', '1', '2', '3', '4', '5', '6', '7', '8', '9',
   '0', '❶', '❷', '❸', '❹', '❺', '❻', '❼', '❽', '❾', '❿', '➀', '➁', '➂',
   '➃', '➄', '➅', '➆', '➇', '➈', '➉', '~', '!', '@', '#', '$', '%', '&',
   '*', '+', '=', '✇', '✈', '✉', '✎', '✒', '✓', '✖', '✜', '✢', '✥', '✦',
   '✩', '✲', '✵', '✹', '✺', '✼', '✾', '✿', '❀', '❁', '❄', '❈', '❍', '❑',
   '❖', '❢', '❤', '❦', '➔', '➘', '➢', '➥', '➲', '➳', '➺', '➾', '◒', '◐',
   '◍', '◌', '◉', '◈', '▤', '▧', '◆', '◇', '◔', '◗', '◘', '⌘', '⍾', '⏏',
   '␥', '◩', '☂', '☘', '⟰', '⟲', '⟴', '⤀', '⤄', '⤒', '⤙', '⤝', '⤡', '⤧',
   '⤴', '⤹', '⥋', '⥐', '⥽', '⦁', '⦂', '⦊', '⦔', '⦛', '⦵', '⦶', '⩁', '⦸',
   '⦹', '⩐', '⦻', '⦼', '⦾', '⧀', '⧄', '⧆', '⩆', '⩌', '⩎', '⧍', '⧑', '⧖',
   '⧜', '⧝', '⧞', '⧢', '⧥', '⧨', '⧫', '⧬', '⧮', '⧲', '⨀', '⨁', '⨇', '⨊',
   '⨎', '⨳', '⨷', '⨿']

/-- The `color_symbol_map` construction of `generate_pdf`
(`src/bin/pdfgen.rs`): the `idx`-th color of the sorted color list gets
`SYMBOLS[idx]`.  The unguarded Rust indexing panics when `idx ≥ 200`;
this is modelled by the `Option`-valued lookup `SYMBOLS[idx]?`, `none`
standing for the panic. -/
def colorSymbolMapAux : ℕ → List (ℕ × ℕ × ℕ) → List ((ℕ × ℕ × ℕ) × Option Char)
  | _, [] => []
  | idx, c :: rest => (c, SYMBOLS[idx]?) :: colorSymbolMapAux (idx + 1) rest

/-- The symbol assignment for a sorted list of distinct colors
(`src/bin/pdfgen.rs`, `colors.clone().into_iter().enumerate()`). -/
def colorSymbolMap (colors : List (ℕ × ℕ × ℕ)) :
    List ((ℕ × ℕ × ℕ) × Option Char) :=
  colorSymbolMapAux 0 colors

/-- `OUTPUT_STITCH_SIZE` (`src/bin/pdfgen.rs`): 50×70 output pixels per
tile page. -/
def OUTPUT_STITCH_SIZE : ℕ × ℕ := (50, 70)

/-- `sub_divide_images` (`src/bin/pdfgen.rs`) on a `w × h` image: the list
of (tile size, tile offset) pairs, in source (row-major, `j` outer) order;
partial tiles at the right/bottom get the remainder sizes. -/
def subDivideImages (w h : ℕ) : List ((ℕ × ℕ) × (ℕ × ℕ)) :=
  (List.range (h / OUTPUT_STITCH_SIZE.2 +
      if h % OUTPUT_STITCH_SIZE.2 ≠ 0 then 1 else 0)).flatMap (fun j =>
    (List.range (w / OUTPUT_STITCH_SIZE.1 +
        if w % OUTPUT_STITCH_SIZE.1 ≠ 0 then 1 else 0)).map (fun i =>
      ((if w < i * OUTPUT_STITCH_SIZE.1 + OUTPUT_STITCH_SIZE.1 then
          w % OUTPUT_STITCH_SIZE.1
        else OUTPUT_STITCH_SIZE.1,
        if h < j * OUTPUT_STITCH_SIZE.2 + OUTPUT_STITCH_SIZE.2 then
          h % OUTPUT_STITCH_SIZE.2
        else OUTPUT_STITCH_SIZE.2),
       (i, j))))

/-- The legend ("threads") page count of `generate_pdf`
(`src/bin/pdfgen.rs`): 1 when at most 69 colors, else
`⌈(colors − 69)/75⌉ + 1`.  The `f64` arithmetic of the source
(`((c − 69.0)/75.0).ceil()`) is exact at these magnitudes and equals the
natural-number ceiling division `(c − 69 + 74)/75`. -/
def legendPages (colors : ℕ) : ℕ :=
  if colors ≤ 69 then 1 else (colors - 69 + 74) / 75 + 1

/-- `total_pages` of `generate_pdf` (`src/bin/pdfgen.rs`): 3 cover/preview
pages, the legend pages, and one page per tile of `sub_divide_images`. -/
def totalPages (w h colors : ℕ) : ℕ :=
  3 + legendPages colors + (subDivideImages w h).length

/-- Does the input pixel `p = (x, y)` fall inside tile `t` (given as (size,
offset) in units of `OUTPUT_STITCH_SIZE`)?  Mirrors the `img.view(i*50,
j*70, tw, th)` rectangle of `sub_divide_images`. -/
def tileContains (t : (ℕ × ℕ) × (ℕ × ℕ)) (p : ℕ × ℕ) : Prop :=
  t.2.1 * OUTPUT_STITCH_SIZE.1 ≤ p.1 ∧
  p.1 < t.2.1 * OUTPUT_STITCH_SIZE.1 + t.1.1 ∧
  t.2.2 * OUTPUT_STITCH_SIZE.2 ≤ p.2 ∧
  p.2 < t.2.2 * OUTPUT_STITCH_SIZE.2 + t.1.2

/-- The recoloring loop of `generate_pdf` (`src/bin/pdfgen.rs`) for one
RGBA pixel: alpha-0 pixels become opaque white and skip snapping
(`continue`); all other pixels are snapped to the nearest DMC color (the
catalog nearest-neighbor search is abstracted as `nearest`) with alpha
255. -/
def recolorPixel (nearest : ℕ × ℕ × ℕ → ℕ × ℕ × ℕ)
    (p : ℕ × ℕ × ℕ × ℕ) : ℕ × ℕ × ℕ × ℕ :=
  if p.2.2.2 = 0 then (255, 255, 255, 255)
  else
    let s := nearest (p.1, p.2.1, p.2.2.1)
    (s.1, s.2.1, s.2.2, 255)

/-- The histogram loop of `generate_pdf` (`src/bin/pdfgen.rs`): white
pixels are skipped (`continue`), every other color is counted; the keys of
the resulting map are the distinct non-white colors. -/
def histogramKeys (pixels : List (ℕ × ℕ × ℕ)) : List (ℕ × ℕ × ℕ) :=
  (pixels.filter (fun c => c ≠ (255, 255, 255))).dedup

/-- The glyph loop of `draw_image_overlay` (`src/bin/pdfgen.rs`): cells
whose color is white are skipped (`continue`) and receive no glyph; every
other cell gets the glyph of its color.  `pixels` lists (coordinate,
color) pairs of the page. -/
def overlayGlyphCells (pixels : List ((ℕ × ℕ) × (ℕ × ℕ × ℕ))) :
    List ((ℕ × ℕ) × (ℕ × ℕ × ℕ)) :=
  pixels.filter (fun pc => pc.2 ≠ (255, 255, 255))

/-- C8. The Gibbs kernel `condit_prob(color, π, s, T) = π·exp(−‖s.sp_color −
color‖/T)` is, for `T > 0` and `π > 0`, strictly decreasing in the distance,
strictly increasing in `π`, and strictly increasing in `T` when the distance
is positive. -/
theorem condit_prob_monotone (sp : SuperPixel) (c c' : Color) (p p' t t' : ℝ)
    (ht : 0 < t) (hp : 0 < p)
    (hdist : sp.sp_color.distance c < sp.sp_color.distance c')
    (hpp : p < p') (hdpos : 0 < sp.sp_color.distance c) (htt : t < t') :
    Color.condit_prob c' p sp t < Color.condit_prob c p sp t ∧
    Color.condit_prob c p sp t < Color.condit_prob c p' sp t ∧
    Color.condit_prob c p sp t < Color.condit_prob c p sp t' := by
  unfold Color.condit_prob
  refine ⟨?_, ?_, ?_⟩
  · apply mul_lt_mul_of_pos_left _ hp
    apply Real.exp_lt_exp.mpr
    rw [neg_one_mul, neg_one_mul, neg_div, neg_div]
    apply neg_lt_neg
    gcongr
  · exact mul_lt_mul_of_pos_right hpp (Real.exp_pos _)
  · apply mul_lt_mul_of_pos_left _ hp
    apply Real.exp_lt_exp.mpr
    have h : sp.sp_color.distance c / t' < sp.sp_color.distance c / t :=
      div_lt_div_of_pos_left hdpos ht htt
    rw [neg_one_mul, neg_div, neg_div]
    exact neg_lt_neg h

/-- Witness for C8 at concrete inputs: `sp_color = (0,0,0)`,
`c = (1,0,0)`, `c' = (2,0,0)`, `p = 1`, `p' = 2`, `t = 1`, `t' = 2`. -/
theorem condit_prob_monotone_witness :
    Color.condit_prob ⟨2, 0, 0⟩ 1 defaultSP 1 <
      Color.condit_prob ⟨1, 0, 0⟩ 1 defaultSP 1 ∧
    Color.condit_prob ⟨1, 0, 0⟩ 1 defaultSP 1 <
      Color.condit_prob ⟨1, 0, 0⟩ 2 defaultSP 1 ∧
    Color.condit_prob ⟨1, 0, 0⟩ 1 defaultSP 1 <
      Color.condit_prob ⟨1, 0, 0⟩ 1 defaultSP 2 := by
  have h1 : defaultSP.sp_color.distance ⟨1, 0, 0⟩ = 1 := by
    simp [Color.distance, defaultSP, Color.BLACK]
  have h2 : defaultSP.sp_color.distance ⟨2, 0, 0⟩ = 2 := by
    simp only [Color.distance, defaultSP, Color.BLACK]
    norm_num
    rw [show (4 : ℝ) = 2 ^ 2 by norm_num, Real.sqrt_sq (by norm_num)]
  exact condit_prob_monotone defaultSP ⟨1, 0, 0⟩ ⟨2, 0, 0⟩ 1 2 1 2
    (by norm_num) (by norm_num) (by rw [h1, h2]; norm_num)
    (by norm_num) (by rw [h1]; norm_num) (by norm_num)

/-- The fold performed by Rust's `reduce(f64::max)` yields an element of
the list that bounds the seed and every element. -/
theorem foldl_max_spec (as : List ℝ) :
    ∀ a : ℝ, (as.foldl max a = a ∨ as.foldl max a ∈ as) ∧
      a ≤ as.foldl max a ∧ ∀ x ∈ as, x ≤ as.foldl max a := by
  induction as with
  | nil => intro a; exact ⟨Or.inl rfl, le_refl a, by simp⟩
  | cons b bs ih =>
    intro a
    obtain ⟨hmem, hle, hbound⟩ := ih (max a b)
    have hfold : (b :: bs).foldl max a = bs.foldl max (max a b) := rfl
    rw [hfold]
    refine ⟨?_, le_trans (le_max_left a b) hle, ?_⟩
    · rcases hmem with h | h
      · rcases max_choice a b with hab | hab
        · exact Or.inl (h.trans hab)
        · exact Or.inr (by rw [h, hab]; exact List.mem_cons_self b bs)
      · exact Or.inr (List.mem_cons_of_mem b h)
    · intro x hx
      rcases List.mem_cons.mp hx with rfl | hx
      · exact le_trans (le_max_right a x) hle
      · exact hbound x hx

/-- If no entry equals `hi`, the `selectColor` fold keeps its
accumulator. -/
theorem selectColor_no_hit (palette : List (Color × ℝ)) (hi : ℝ) :
    ∀ (probs : List ℝ) (i : ℕ) (acc : Color),
      (∀ p ∈ probs, p ≠ hi) → selectColor palette hi probs i acc = acc := by
  intro probs
  induction probs with
  | nil => intro i acc _; rfl
  | cons p rest ih =>
    intro i acc hne
    rw [selectColor, if_neg (hne p (List.mem_cons_self p rest))]
    exact ih (i + 1) acc fun q hq => hne q (List.mem_cons_of_mem p hq)

/-- The `selectColor` fold returns the palette color of the LAST index
whose entry equals `hi`. -/
theorem selectColor_last_hit (palette : List (Color × ℝ)) (hi : ℝ) :
    ∀ (probs : List ℝ) (i : ℕ) (acc : Color) (j : ℕ),
      j < probs.length → probs.getD j 0 = hi →
      (∀ j', j < j' → j' < probs.length → probs.getD j' 0 ≠ hi) →
      selectColor palette hi probs i acc =
        (palette.getD (i + j) (Color.BLACK, 0)).1 := by
  intro probs
  induction probs with
  | nil => intro i acc j hj _ _; simp at hj
  | cons p rest ih =>
    intro i acc j hj hhit hlast
    cases j with
    | zero =>
      have hp : p = hi := by simpa using hhit
      have hrest : ∀ q ∈ rest, q ≠ hi := by
        intro q hq
        obtain ⟨n, hn, rfl⟩ := List.getElem_of_mem hq
        have h := hlast (n + 1) (Nat.succ_pos n) (by simpa using hn)
        rw [List.getD_cons_succ, List.getD_eq_getElem _ _ hn] at h
        exact h
      rw [selectColor, if_pos hp, selectColor_no_hit _ _ _ _ _ hrest]
      rfl
    | succ l =>
      have h1 : l < rest.length := by simpa using hj
      have h2 : rest.getD l 0 = hi := by simpa [List.getD_cons_succ] using hhit
      have h3 : ∀ j', l < j' → j' < rest.length → rest.getD j' 0 ≠ hi := by
        intro j' ha hb
        have h := hlast (j' + 1) (Nat.succ_lt_succ ha) (by simpa using hb)
        simpa [List.getD_cons_succ] using h
      rw [selectColor]
      rw [ih (i + 1) _ l h1 h2 h3]
      have : i + 1 + l = i + (l + 1) := by omega
      rw [this]

/-- C1 (amended: ties broken by LAST maximum).  In every ASSOCIATE pass,
each superpixel's `palette_color` is set to the palette entry whose
unnormalized conditional probability (the `condit_prob` value, inspected
before normalization) is maximal; when several palette entries tie for the
maximum, the one with the LARGEST index is chosen. -/
theorem associate_palette_color_last_argmax
    (sps : List SuperPixel) (palette : List (Color × ℝ))
    (clusters : List (ℕ × ℕ)) (k : ℕ) (t : ℝ) (i : ℕ)
    (hpal : palette ≠ []) (hilt : i < sps.length) :
    ∃ j < palette.length,
      (∀ p ∈ unnormProbs palette (sps.getD i defaultSP) t,
          p ≤ (unnormProbs palette (sps.getD i defaultSP) t).getD j 0) ∧
      (∀ j', j < j' → j' < palette.length →
          (unnormProbs palette (sps.getD i defaultSP) t).getD j' 0 ≠
            (unnormProbs palette (sps.getD i defaultSP) t).getD j 0) ∧
      ((associate sps palette clusters k t).1.getD i defaultSP).palette_color
        = (palette.getD j (Color.BLACK, 0)).1 := by
  set sp0 := sps.getD i defaultSP with hsp0
  set probs := unnormProbs palette sp0 t with hprobsdef
  have hlen : probs.length = palette.length := by
    simp [hprobsdef, unnormProbs]
  have hpne : probs ≠ [] := by
    intro h
    apply hpal
    have := congrArg List.length h
    rw [hlen] at this
    exact List.length_eq_zero.mp this
  obtain ⟨p, rest, hcons⟩ := List.exists_cons_of_ne_nil hpne
  set hi : ℝ := rest.foldl max p with hhidef
  obtain ⟨hmem, hple, hbound⟩ := foldl_max_spec rest p
  have hhimem : hi ∈ probs := by
    rw [hcons]
    rcases hmem with h | h
    · rw [← hhidef] at h; rw [h]; exact List.mem_cons_self p rest
    · exact List.mem_cons_of_mem p (by rw [← hhidef] at h; exact h)
  have hhibound : ∀ x ∈ probs, x ≤ hi := by
    intro x hx
    rw [hcons] at hx
    rcases List.mem_cons.mp hx with rfl | hx
    · exact hple
    · exact hbound x hx
  obtain ⟨idx, hidx, hidxval⟩ := List.getElem_of_mem hhimem
  have hplen : 0 < probs.length := by rw [hcons]; simp
  classical
  set P : ℕ → Prop := fun j => probs.getD j 0 = hi with hPdef
  have hPidx : P idx := by
    rw [hPdef]
    simp only []
    rw [List.getD_eq_getElem _ _ hidx, hidxval]
  set j := Nat.findGreatest P (probs.length - 1) with hjdef
  have hPj : P j := Nat.findGreatest_spec (m := idx) (by omega) hPidx
  have hjle : j ≤ probs.length - 1 := Nat.findGreatest_le _
  have hjlt : j < probs.length := by omega
  have hlast : ∀ j', j < j' → j' < probs.length → ¬ P j' := by
    intro j' h1 h2
    exact Nat.findGreatest_is_greatest h1 (by omega)
  have hPj' : probs.getD j 0 = hi := hPj
  refine ⟨j, by omega, ?_, ?_, ?_⟩
  · intro q hq
    rw [hPj']
    exact hhibound q hq
  · intro j' h1 h2
    rw [hPj']
    exact hlast j' h1 (by omega)
  · have hres :
        (associate sps palette clusters k t).1.getD i defaultSP =
          SuperPixel.normalize_probs
            { sp0 with conditional_probability := probs }
            palette clusters k := by
      show (sps.map _).getD i defaultSP = _
      rw [List.getD_eq_getElem _ _ (by simpa using hilt), List.getElem_map,
        ← List.getD_eq_getElem sps defaultSP hilt]
    rw [hres]
    show selectColor palette
        (match ({ sp0 with conditional_probability := probs } :
            SuperPixel).conditional_probability with
          | [] => (0 : ℝ)
          | p :: rest => rest.foldl max p)
        probs 0 sp0.palette_color = _
    simp only [hcons]
    rw [← hcons]
    have := selectColor_last_hit palette hi probs 0 sp0.palette_color j
      hjlt hPj hlast
    rw [this, Nat.zero_add]

/-- Counterexample to C1 as stated: with two palette entries at equal
distance from the superpixel's mean color and equal marginals, the two
unnormalized conditional probabilities tie for the maximum, so the first
maximum is at index 0 — yet ASSOCIATE assigns the color of entry 1 (the
last maximum), which differs from entry 0's color. -/
theorem associate_first_argmax_counterexample :
    (unnormProbs palC1 spC1 1).getD 0 0 = (unnormProbs palC1 spC1 1).getD 1 0
      ∧
    ((associate [spC1] palC1 [(0, 1)] 1 1).1.getD 0 defaultSP).palette_color
      = (palC1.getD 1 (Color.BLACK, 0)).1 ∧
    ((associate [spC1] palC1 [(0, 1)] 1 1).1.getD 0 defaultSP).palette_color
      ≠ (palC1.getD 0 (Color.BLACK, 0)).1 := by
  have hd1 : spC1.sp_color.distance ⟨1, 0, 0⟩ = 1 := by
    simp [Color.distance, spC1, defaultSP, Color.BLACK]
  have hd2 : spC1.sp_color.distance ⟨-1, 0, 0⟩ = 1 := by
    simp [Color.distance, spC1, defaultSP, Color.BLACK]
  have hprobs : unnormProbs palC1 spC1 1 =
      [1 / 2 * Real.exp (-1), 1 / 2 * Real.exp (-1)] := by
    simp [unnormProbs, palC1, Color.condit_prob, hd1, hd2]
  have hsel :
      selectColor palC1 (1 / 2 * Real.exp (-1))
        [1 / 2 * Real.exp (-1), 1 / 2 * Real.exp (-1)] 0 spC1.palette_color
        = (palC1.getD 1 (Color.BLACK, 0)).1 := by
    rw [selectColor, if_pos rfl, selectColor, if_pos rfl, selectColor]
  have hres :
      ((associate [spC1] palC1 [(0, 1)] 1 1).1.getD 0 defaultSP).palette_color
        = (palC1.getD 1 (Color.BLACK, 0)).1 := by
    show (SuperPixel.normalize_probs
        { spC1 with conditional_probability := unnormProbs palC1 spC1 1 }
        palC1 [(0, 1)] 1).palette_color = _
    rw [SuperPixel.normalize_probs]
    simp only [hprobs]
    rw [show List.foldl max (1 / 2 * Real.exp (-1))
        [1 / 2 * Real.exp (-1)] = 1 / 2 * Real.exp (-1) by
      simp [List.foldl]]
    exact hsel
  refine ⟨by rw [hprobs]; rfl, hres, ?_⟩
  rw [hres]
  simp only [palC1, List.getD_cons_succ, List.getD_cons_zero]
  intro h
  have := congrArg Color.l h
  norm_num at this

/-- Witness for the amended C1 theorem at a concrete input. -/
theorem associate_palette_color_last_argmax_witness :
    ∃ j < palC1.length,
      (∀ p ∈ unnormProbs palC1 ([spC1].getD 0 defaultSP) 1,
          p ≤ (unnormProbs palC1 ([spC1].getD 0 defaultSP) 1).getD j 0) ∧
      (∀ j', j < j' → j' < palC1.length →
          (unnormProbs palC1 ([spC1].getD 0 defaultSP) 1).getD j' 0 ≠
            (unnormProbs palC1 ([spC1].getD 0 defaultSP) 1).getD j 0) ∧
      ((associate [spC1] palC1 [(0, 1)] 1 1).1.getD 0 defaultSP).palette_color
        = (palC1.getD j (Color.BLACK, 0)).1 :=
  associate_palette_color_last_argmax [spC1] palC1 [(0, 1)] 1 1 0
    (by simp [palC1]) (by simp)

theorem list_sum_map_div (l : List ℝ) (d : ℝ) :
    (l.map (fun p => p / d)).sum = l.sum / d := by
  induction l with
  | nil => simp
  | cons x xs ih => simp [ih, add_div]

theorem list_sum_pos (l : List ℝ) (h0 : ∀ x ∈ l, 0 ≤ x)
    (h1 : ∃ x ∈ l, 0 < x) : 0 < l.sum := by
  induction l with
  | nil => obtain ⟨x, hx, _⟩ := h1; simp at hx
  | cons x xs ih =>
    rw [List.sum_cons]
    obtain ⟨y, hy, hypos⟩ := h1
    rcases List.mem_cons.mp hy with rfl | hy
    · have hxs : 0 ≤ xs.sum :=
        List.sum_nonneg fun z hz => h0 z (List.mem_cons_of_mem _ hz)
      linarith
    · have hx0 : 0 ≤ x := h0 x (List.mem_cons_self _ _)
      have := ih (fun z hz => h0 z (List.mem_cons_of_mem _ hz)) ⟨y, hy, hypos⟩
      linarith

theorem list_sum_map_add {α : Type} (l : List α) (f g : α → ℝ) :
    (l.map (fun x => f x + g x)).sum = (l.map f).sum + (l.map g).sum := by
  induction l with
  | nil => simp
  | cons x xs ih => simp [ih]; ring

theorem list_sum_map_mul_right {α : Type} (l : List α) (f : α → ℝ) (c : ℝ) :
    (l.map (fun x => f x * c)).sum = (l.map f).sum * c := by
  induction l with
  | nil => simp
  | cons x xs ih => simp [ih]; ring

theorem list_sum_range_getD (l : List ℝ) :
    ((List.range l.length).map (fun i => l.getD i 0)).sum = l.sum := by
  induction l with
  | nil => simp
  | cons x xs ih =>
    rw [List.length_cons, List.range_succ_eq_map, List.map_cons, List.map_map]
    have hcomp : ((fun i => (x :: xs).getD i 0) ∘ Nat.succ) =
        fun i => xs.getD i 0 := by
      funext i
      simp [List.getD_cons_succ]
    rw [hcomp, List.sum_cons, List.getD_cons_zero, ih, List.sum_cons]

theorem list_sum_swap {α : Type} (l : List α) (n : ℕ) (g : α → ℕ → ℝ) :
    ((List.range n).map (fun i => (l.map (fun x => g x i)).sum)).sum =
      (l.map (fun x => ((List.range n).map (g x)).sum)).sum := by
  induction l with
  | nil => simp
  | cons x xs ih =>
    simp only [List.map_cons, List.sum_cons]
    rw [← ih, ← list_sum_map_add]

theorem list_sum_of_const {α : Type} (l : List α) (f : α → ℝ) (c : ℝ)
    (h : ∀ x ∈ l, f x = c) : (l.map f).sum = l.length * c := by
  induction l with
  | nil => simp
  | cons x xs ih =>
    rw [List.map_cons, List.sum_cons, h x (List.mem_cons_self _ _),
      ih fun z hz => h z (List.mem_cons_of_mem _ hz)]
    rw [List.length_cons]
    push_cast
    ring

/-- C3.  After every ASSOCIATE pass, each superpixel's conditional
probabilities over palette entries sum to exactly 1, and the palette
marginals `π_k` sum to exactly 1, given `N = Wout·Hout` superpixels each
with prior probability `1/N` (and a palette with nonnegative marginals at
least one of which is positive, so the normalizing denominators are
nonzero). -/
theorem associate_sums_to_one
    (sps : List SuperPixel) (palette : List (Color × ℝ))
    (clusters : List (ℕ × ℕ)) (k : ℕ) (t : ℝ) (N : ℕ)
    (hN : 0 < N) (hlen : sps.length = N)
    (hprior : ∀ sp ∈ sps, sp.probability = 1 / (N : ℝ))
    (hnn : ∀ pe ∈ palette, 0 ≤ pe.2) (hpos : ∃ pe ∈ palette, 0 < pe.2) :
    (∀ sp ∈ (associate sps palette clusters k t).1,
        sp.conditional_probability.sum = 1) ∧
    ((associate sps palette clusters k t).2.map (fun pe => pe.2)).sum = 1
    := by
  have hprobs_pos : ∀ sp : SuperPixel, 0 < (unnormProbs palette sp t).sum := by
    intro sp
    apply list_sum_pos
    · intro x hx
      obtain ⟨pe, hpe, rfl⟩ := List.mem_map.mp hx
      exact mul_nonneg (hnn pe hpe) (Real.exp_pos _).le
    · obtain ⟨pe, hpe, hp⟩ := hpos
      exact ⟨pe.1.condit_prob pe.2 sp t, List.mem_map_of_mem _ hpe,
        mul_pos hp (Real.exp_pos _)⟩
  have h1 : ∀ sp ∈ (associate sps palette clusters k t).1,
      sp.conditional_probability.sum = 1 := by
    intro sp' hsp'
    obtain ⟨sp, hsp, rfl⟩ := List.mem_map.mp hsp'
    show ((SuperPixel.normalize_probs _ _ _ _).conditional_probability).sum = 1
    rw [SuperPixel.normalize_probs]
    simp only []
    rw [list_sum_map_div]
    exact div_self (ne_of_gt (hprobs_pos sp))
  refine ⟨h1, ?_⟩
  have hcplen : ∀ sp ∈ (associate sps palette clusters k t).1,
      sp.conditional_probability.length = palette.length := by
    intro sp' hsp'
    obtain ⟨sp, hsp, rfl⟩ := List.mem_map.mp hsp'
    show ((SuperPixel.normalize_probs _ _ _ _).conditional_probability).length
      = _
    rw [SuperPixel.normalize_probs]
    simp [unnormProbs]
  have hprob2 : ∀ sp ∈ (associate sps palette clusters k t).1,
      sp.probability = 1 / (N : ℝ) := by
    intro sp' hsp'
    obtain ⟨sp, hsp, rfl⟩ := List.mem_map.mp hsp'
    show (SuperPixel.normalize_probs _ _ _ _).probability = _
    rw [SuperPixel.normalize_probs]
    exact hprior sp hsp
  have hlen2 : (associate sps palette clusters k t).1.length = N := by
    show (sps.map _).length = N
    rw [List.length_map, hlen]
  set sps2 := (associate sps palette clusters k t).1 with hsps2
  have hsnd : (associate sps palette clusters k t).2.map (fun pe => pe.2) =
      (List.range palette.length).map (fun i =>
        (sps2.map (fun sp =>
          sp.conditional_probability.getD i 0 * sp.probability)).sum) := by
    show (palette.enum.map _).map _ = _
    rw [List.map_map, ← List.enum_map_fst palette, List.map_map]
    rfl
  rw [hsnd, list_sum_swap]
  have heach : ∀ sp ∈ sps2,
      ((List.range palette.length).map (fun i =>
        sp.conditional_probability.getD i 0 * sp.probability)).sum
        = 1 / (N : ℝ) := by
    intro sp hsp
    rw [list_sum_map_mul_right, ← hcplen sp hsp, list_sum_range_getD,
      h1 sp hsp, one_mul, hprob2 sp hsp]
  rw [list_sum_of_const sps2 _ _ heach, hlen2]
  field_simp

/-- Witness for C3 at a concrete input: one superpixel with prior 1, one
palette entry with marginal 1/2. -/
theorem associate_sums_to_one_witness :
    (∀ sp ∈ (associate [spC1] [(Color.BLACK, 1 / 2)] [(0, 1)] 1 1).1,
        sp.conditional_probability.sum = 1) ∧
    ((associate [spC1] [(Color.BLACK, 1 / 2)] [(0, 1)] 1 1).2.map
        (fun pe => pe.2)).sum = 1 :=
  associate_sums_to_one [spC1] [(Color.BLACK, 1 / 2)] [(0, 1)] 1 1 1
    (by norm_num) (by simp)
    (by intro sp hsp; rw [List.mem_singleton.mp hsp]; simp [spC1, defaultSP])
    (by intro pe hpe; rw [List.mem_singleton.mp hpe]; norm_num)
    ⟨(Color.BLACK, 1 / 2), List.mem_singleton.mpr rfl, by norm_num⟩

/-- Counterexample to C2 as stated: for the unit principal axis along L
(component `(1,0,0)`) and `c₀ = (0,0,0)`, the code's second palette entry
is `(1.5, 0, 0)` — it differs from `c₀` in the L channel — while the
claim's (a,b)-plane delta would leave it at `(0,0,0)`. -/
theorem initPalette_spec_counterexample :
    initPalette Color.BLACK (1, 0, 0) ≠
      initPaletteSpecClaim Color.BLACK (1, 0, 0) := by
  intro h
  have h2 := congrArg (fun l => ((l.getD 1 (Color.BLACK, 0)).1).l) h
  simp only [initPalette, initPaletteSpecClaim, initDelta, Color.perturb,
    Color.BLACK] at h2
  norm_num at h2

/-- C2 (amended).  At optimizer initialization the palette is exactly
`[(c₀, 0.5), (c₀ + Δ, 0.5)]` where `c₀` is the mean Lab color and `Δ` is
obtained from the first principal axis `v` by `perturb` applied to the
first two components (L and a) of `1.5·v`: the second entry differs from
`c₀` by `(1.5·v_L, 1.5·v_a, 1.5·v_a)` — `truncate` keeps the (L, a)
components, not (a, b), and `perturb` adds its second component to both a
and b. -/
theorem initPalette_eq (c : Color) (v : ℝ × ℝ × ℝ) :
    initPalette c v =
      [(c, 0.5),
       (⟨c.l + v.1 * 1.5, c.a + v.2.1 * 1.5, c.b + v.2.1 * 1.5⟩, 0.5)] := by
  simp [initPalette, initDelta, Color.perturb]

theorem spRefineStep_isSome_mono (super_pixels : List SuperPixel)
    (img : ℕ × ℕ → Color) (out_size : ℕ × ℕ) (coord sp_coord : ℕ × ℕ)
    (best : Option (ℝ × (ℕ × ℕ))) (d : ℤ × ℤ) (h : best.isSome) :
    (spRefineStep super_pixels img out_size coord sp_coord best d).isSome
    := by
  obtain ⟨⟨r, n⟩, rfl⟩ := Option.isSome_iff_exists.mp h
  rw [spRefineStep]
  split
  · dsimp only
    split <;> rfl
  · rfl

theorem spRefineFold_isSome (super_pixels : List SuperPixel)
    (img : ℕ × ℕ → Color) (out_size : ℕ × ℕ) (coord sp_coord : ℕ × ℕ) :
    ∀ (l : List (ℤ × ℤ)) (st : Option (ℝ × (ℕ × ℕ))),
      (st.isSome ∨ ∃ d ∈ l,
        0 ≤ (sp_coord.1 : ℤ) + d.1 ∧ 0 ≤ (sp_coord.2 : ℤ) + d.2 ∧
        (sp_coord.1 : ℤ) + d.1 < (out_size.1 : ℤ) ∧
        (sp_coord.2 : ℤ) + d.2 < (out_size.2 : ℤ)) →
      (l.foldl (spRefineStep super_pixels img out_size coord sp_coord)
        st).isSome := by
  intro l
  induction l with
  | nil =>
    intro st h
    rcases h with h | ⟨d, hd, _⟩
    · exact h
    · simp at hd
  | cons d rest ih =>
    intro st h
    rw [List.foldl_cons]
    rcases h with h | ⟨d', hd', hcond⟩
    · exact ih _ (Or.inl
        (spRefineStep_isSome_mono super_pixels img out_size coord sp_coord
          st d h))
    · rcases List.mem_cons.mp hd' with rfl | hd'
      · apply ih _ (Or.inl ?_)
        rw [spRefineStep, if_pos hcond]
        cases st with
        | none => rfl
        | some x => obtain ⟨r, n⟩ := x; dsimp only; split <;> rfl
      · exact ih _ (Or.inr ⟨d', hd', hcond⟩)

theorem spRefineStep_inBounds (super_pixels : List SuperPixel)
    (img : ℕ × ℕ → Color) (out_size : ℕ × ℕ) (coord sp_coord : ℕ × ℕ)
    (best : Option (ℝ × (ℕ × ℕ))) (d : ℤ × ℤ)
    (h : ∀ r n, best = some (r, n) → n.1 < out_size.1 ∧ n.2 < out_size.2) :
    ∀ r n, spRefineStep super_pixels img out_size coord sp_coord best d
      = some (r, n) → n.1 < out_size.1 ∧ n.2 < out_size.2 := by
  intro r n hstep
  rw [spRefineStep] at hstep
  by_cases hcond : 0 ≤ (sp_coord.1 : ℤ) + d.1 ∧ 0 ≤ (sp_coord.2 : ℤ) + d.2 ∧
      (sp_coord.1 : ℤ) + d.1 < (out_size.1 : ℤ) ∧
      (sp_coord.2 : ℤ) + d.2 < (out_size.2 : ℤ)
  · rw [if_pos hcond] at hstep
    obtain ⟨h1, h2, h3, h4⟩ := hcond
    cases best with
    | none =>
      simp only [Option.some.injEq, Prod.mk.injEq] at hstep
      obtain ⟨-, rfl⟩ := hstep
      refine ⟨?_, ?_⟩ <;> (dsimp only; omega)
    | some x =>
      obtain ⟨br, bn⟩ := x
      dsimp only at hstep
      split at hstep
      · simp only [Option.some.injEq, Prod.mk.injEq] at hstep
        obtain ⟨-, rfl⟩ := hstep
        refine ⟨?_, ?_⟩ <;> (dsimp only; omega)
      · simp only [Option.some.injEq, Prod.mk.injEq] at hstep
        obtain ⟨-, rfl⟩ := hstep
        exact h br bn rfl
  · rw [if_neg hcond] at hstep
    exact h r n hstep

theorem spRefineFold_inBounds (super_pixels : List SuperPixel)
    (img : ℕ × ℕ → Color) (out_size : ℕ × ℕ) (coord sp_coord : ℕ × ℕ) :
    ∀ (l : List (ℤ × ℤ)) (st : Option (ℝ × (ℕ × ℕ))),
      (∀ r n, st = some (r, n) → n.1 < out_size.1 ∧ n.2 < out_size.2) →
      ∀ r n, l.foldl (spRefineStep super_pixels img out_size coord sp_coord)
          st = some (r, n) →
        n.1 < out_size.1 ∧ n.2 < out_size.2 := by
  intro l
  induction l with
  | nil => intro st h r n hfold; exact h r n hfold
  | cons d rest ih =>
    intro st h r n hfold
    rw [List.foldl_cons] at hfold
    exact ih _ (spRefineStep_inBounds super_pixels img out_size coord
      sp_coord st d h) r n hfold

/-- C4.  After every SP_REFINE pass, every input-pixel coordinate belongs
to the `owned_pixels` set of exactly one superpixel: the sets are pairwise
disjoint and their union is the full input-coordinate grid, for every
input and output size with positive dimensions (and any superpixel
state). -/
theorem sp_refine_partitions
    (super_pixels : List SuperPixel) (img : ℕ × ℕ → Color)
    (in_size out_size : ℕ × ℕ)
    (hin1 : 0 < in_size.1) (hin2 : 0 < in_size.2)
    (hout1 : 0 < out_size.1) (hout2 : 0 < out_size.2) :
    ∀ c ∈ gridCoords in_size,
      ∃! i, i < out_size.1 * out_size.2 ∧
        c ∈ ownedPixels super_pixels img in_size out_size i := by
  intro c hc
  obtain ⟨idx, hidx, rfl⟩ := List.mem_map.mp hc
  rw [List.mem_range] at hidx
  set c : ℕ × ℕ := (idx % in_size.1, idx / in_size.1) with hcdef
  have hc1 : c.1 < in_size.1 := Nat.mod_lt _ hin1
  have hc2 : c.2 < in_size.2 := by
    simp only [hcdef]
    exact Nat.div_lt_of_lt_mul hidx
  set sp_coord : ℕ × ℕ :=
    (c.1 * out_size.1 / in_size.1, c.2 * out_size.2 / in_size.2) with hspdef
  have hsp1 : sp_coord.1 < out_size.1 := by
    apply Nat.div_lt_of_lt_mul
    exact (Nat.mul_lt_mul_right hout1).mpr hc1
  have hsp2 : sp_coord.2 < out_size.2 := by
    apply Nat.div_lt_of_lt_mul
    exact (Nat.mul_lt_mul_right hout2).mpr hc2
  have hzero : (0, 0) ∈ D_COORDS := by simp [D_COORDS]
  have hcond00 : 0 ≤ (sp_coord.1 : ℤ) + ((0, 0) : ℤ × ℤ).1 ∧
      0 ≤ (sp_coord.2 : ℤ) + ((0, 0) : ℤ × ℤ).2 ∧
      (sp_coord.1 : ℤ) + ((0, 0) : ℤ × ℤ).1 < (out_size.1 : ℤ) ∧
      (sp_coord.2 : ℤ) + ((0, 0) : ℤ × ℤ).2 < (out_size.2 : ℤ) := by
    refine ⟨?_, ?_, ?_, ?_⟩
    · show (0 : ℤ) ≤ (sp_coord.1 : ℤ) + 0
      omega
    · show (0 : ℤ) ≤ (sp_coord.2 : ℤ) + 0
      omega
    · show (sp_coord.1 : ℤ) + 0 < (out_size.1 : ℤ)
      omega
    · show (sp_coord.2 : ℤ) + 0 < (out_size.2 : ℤ)
      omega
  have hsome := spRefineFold_isSome super_pixels img out_size c sp_coord
    D_COORDS none (Or.inr ⟨(0, 0), hzero, hcond00⟩)
  obtain ⟨⟨r, n⟩, hfold⟩ := Option.isSome_iff_exists.mp hsome
  have hbounds := spRefineFold_inBounds super_pixels img out_size c sp_coord
    D_COORDS none (by intro r n h; cases h) r n hfold
  have hbest : bestCoord super_pixels img in_size out_size c = n := by
    rw [bestCoord]
    rw [show (c.1 * out_size.1 / in_size.1, c.2 * out_size.2 / in_size.2)
      = sp_coord from rfl]
    rw [hfold]
  have hlt : chosenIdx super_pixels img in_size out_size c <
      out_size.1 * out_size.2 := by
    rw [chosenIdx, hbest]
    calc n.1 + n.2 * out_size.1
        < out_size.1 + n.2 * out_size.1 := by omega
      _ = (n.2 + 1) * out_size.1 := by ring
      _ ≤ out_size.2 * out_size.1 :=
          Nat.mul_le_mul_right _ (by omega)
      _ = out_size.1 * out_size.2 := Nat.mul_comm _ _
  refine ⟨chosenIdx super_pixels img in_size out_size c, ⟨hlt, ?_⟩, ?_⟩
  · rw [ownedPixels, List.mem_filter]
    exact ⟨hc, by simp⟩
  · rintro i ⟨-, hmem⟩
    rw [ownedPixels, List.mem_filter] at hmem
    exact (of_decide_eq_true hmem.2).symm

/-- Witness for C4 at the concrete sizes 1×1 → 1×1. -/
theorem sp_refine_partitions_witness :
    ∃! i, i < 1 * 1 ∧
      (0, 0) ∈ ownedPixels [defaultSP] (fun _ => Color.BLACK) (1, 1) (1, 1) i
    :=
  sp_refine_partitions [defaultSP] (fun _ => Color.BLACK) (1, 1) (1, 1)
    (by norm_num) (by norm_num) (by norm_num) (by norm_num)
    (0, 0) (by simp [gridCoords])

theorem splitPal_length (st : ExpandState) (i : ℕ) :
    (splitPal st i).length = st.palette.length + 2 := by
  simp [splitPal]

theorem getD_set_self {α : Type} (l : List α) (i : ℕ) (a d : α)
    (h : i < l.length) : (l.set i a).getD i d = a := by
  rw [List.getD_eq_getElem _ _ (by simpa using h)]
  exact List.getElem_set_self (by simpa using h)

theorem getD_set_ne {α : Type} (l : List α) (i j : ℕ) (a d : α)
    (hne : i ≠ j) : (l.set i a).getD j d = l.getD j d := by
  by_cases hj : j < l.length
  · rw [List.getD_eq_getElem _ _ (by simpa using hj),
      List.getD_eq_getElem _ _ hj]
    exact List.getElem_set_ne hne _
  · rw [List.getD_eq_default _ _ (by simpa using le_of_not_lt hj),
      List.getD_eq_default _ _ (le_of_not_lt hj)]

theorem splitStep_lengths (st : ExpandState) (i : ℕ)
    (hc : st.clusters.length = st.k) (hp : st.palette.length = 2 * st.k) :
    (splitStep st i).clusters.length = (splitStep st i).k ∧
    (splitStep st i).palette.length = 2 * (splitStep st i).k := by
  simp only [splitStep]
  split
  · constructor <;> simp [splitPal_length] <;> omega
  · exact ⟨hc, hp⟩

theorem expandLoop_fold_lengths :
    ∀ (l : List ℕ) (st : ExpandState),
      st.clusters.length = st.k → st.palette.length = 2 * st.k →
      (l.foldl splitStep st).clusters.length = (l.foldl splitStep st).k ∧
      (l.foldl splitStep st).palette.length = 2 * (l.foldl splitStep st).k
    := by
  intro l
  induction l with
  | nil => intro st hc hp; exact ⟨hc, hp⟩
  | cons i rest ih =>
    intro st hc hp
    rw [List.foldl_cons]
    obtain ⟨hc2, hp2⟩ := splitStep_lengths st i hc hp
    exact ih _ hc2 hp2

theorem perturbLoop_length (clusters : List (ℕ × ℕ)) (delta : ℝ × ℝ) :
    ∀ (l : List ℕ) (pal : List (Color × ℝ)),
      (l.foldl (fun pal i =>
        let cl := clusters.getD i (0, 0)
        let c := pal.getD cl.2 (Color.BLACK, 0)
        pal.set cl.2 (c.1.perturb delta, c.2)) pal).length = pal.length := by
  intro l
  induction l with
  | nil => intro pal; rfl
  | cons i rest ih =>
    intro pal
    rw [List.foldl_cons, ih]
    simp

/-- C5.  The palette length is tied to the cluster count `k` by EXPAND:
starting from a state with `len(clusters) = k` and `len(palette) = 2k`,
after an EXPAND call that ends with `k < k_max` the palette has length
`2k`; after an EXPAND call in which `k` reaches or exceeds `k_max` (the
collapse branch) the palette has length `k` and each collapsed entry is
`((c_a+c_b)/2, π_a+π_b)` for its cluster pair (the clusters as they stand
at the end of the split loop). -/
theorem expand_palette_length
    (st : ExpandState) (k_max : ℕ) (delta : ℝ × ℝ)
    (hc : st.clusters.length = st.k) (hp : st.palette.length = 2 * st.k) :
    ((expand st k_max delta).k < k_max →
      (expand st k_max delta).palette.length
        = 2 * (expand st k_max delta).k) ∧
    (k_max ≤ (expand st k_max delta).k →
      (expand st k_max delta).palette.length = (expand st k_max delta).k ∧
      ∀ i < (expand st k_max delta).k,
        (expand st k_max delta).palette.getD i (Color.BLACK, 0) =
          ((((expandLoop st k_max).palette.getD
              ((expandLoop st k_max).clusters.getD i (0, 0)).1
              (Color.BLACK, 0)).1 +
            ((expandLoop st k_max).palette.getD
              ((expandLoop st k_max).clusters.getD i (0, 0)).2
              (Color.BLACK, 0)).1) / (2 : ℝ),
           ((expandLoop st k_max).palette.getD
              ((expandLoop st k_max).clusters.getD i (0, 0)).1
              (Color.BLACK, 0)).2 +
            ((expandLoop st k_max).palette.getD
              ((expandLoop st k_max).clusters.getD i (0, 0)).2
              (Color.BLACK, 0)).2)) := by
  obtain ⟨hc2, hp2⟩ := expandLoop_fold_lengths (List.range (min st.k k_max))
    st hc hp
  by_cases hcol : k_max ≤ (expandLoop st k_max).k
  · have hexp : expand st k_max delta =
        { clusters := (List.range (expandLoop st k_max).k).map
            (fun i => (i, 0)),
          palette := (List.range (expandLoop st k_max).k).map (fun i =>
            let cl := (expandLoop st k_max).clusters.getD i (0, 0)
            let c1 := (expandLoop st k_max).palette.getD cl.1
              (Color.BLACK, 0)
            let c2 := (expandLoop st k_max).palette.getD cl.2
              (Color.BLACK, 0)
            ((c1.1 + c2.1) / (2 : ℝ), c1.2 + c2.2)),
          k := (expandLoop st k_max).k } := by
      rw [expand, if_pos hcol]
    rw [hexp]
    refine ⟨fun hlt => absurd hlt (by simp; omega), fun _ => ⟨by simp, ?_⟩⟩
    intro i hi
    simp only [] at hi
    rw [List.getD_eq_getElem _ _ (by simpa using hi), List.getElem_map,
      List.getElem_range]
  · have hexp : expand st k_max delta =
        { expandLoop st k_max with
            palette := perturbLoop (expandLoop st k_max).palette
              (expandLoop st k_max).clusters (expandLoop st k_max).k delta }
        := by
      rw [expand, if_neg hcol]
    rw [hexp]
    refine ⟨fun _ => ?_, fun hge => absurd hge (by simpa using hcol)⟩
    show (perturbLoop _ _ _ _).length = 2 * (expandLoop st k_max).k
    rw [perturbLoop, perturbLoop_length]
    exact hp2

/-- Witness for C5 at a concrete state: one cluster `(0,1)`, palette of
two entries, `k = 1`, `k_max = 5`. -/
theorem expand_palette_length_witness :
    ((expand ⟨[(0, 1)], [(Color.BLACK, 1 / 2), (⟨1, 0, 0⟩, 1 / 2)], 1⟩
        5 (0, 0)).k < 5 →
      (expand ⟨[(0, 1)], [(Color.BLACK, 1 / 2), (⟨1, 0, 0⟩, 1 / 2)], 1⟩
        5 (0, 0)).palette.length
        = 2 * (expand ⟨[(0, 1)], [(Color.BLACK, 1 / 2), (⟨1, 0, 0⟩, 1 / 2)],
            1⟩ 5 (0, 0)).k) ∧
    (5 ≤ (expand ⟨[(0, 1)], [(Color.BLACK, 1 / 2), (⟨1, 0, 0⟩, 1 / 2)], 1⟩
        5 (0, 0)).k →
      (expand ⟨[(0, 1)], [(Color.BLACK, 1 / 2), (⟨1, 0, 0⟩, 1 / 2)], 1⟩
        5 (0, 0)).palette.length
        = (expand ⟨[(0, 1)], [(Color.BLACK, 1 / 2), (⟨1, 0, 0⟩, 1 / 2)], 1⟩
            5 (0, 0)).k ∧
      ∀ i < (expand ⟨[(0, 1)], [(Color.BLACK, 1 / 2), (⟨1, 0, 0⟩, 1 / 2)],
          1⟩ 5 (0, 0)).k,
        (expand ⟨[(0, 1)], [(Color.BLACK, 1 / 2), (⟨1, 0, 0⟩, 1 / 2)], 1⟩
            5 (0, 0)).palette.getD i (Color.BLACK, 0) =
          ((((expandLoop ⟨[(0, 1)], [(Color.BLACK, 1 / 2),
                (⟨1, 0, 0⟩, 1 / 2)], 1⟩ 5).palette.getD
              ((expandLoop ⟨[(0, 1)], [(Color.BLACK, 1 / 2),
                (⟨1, 0, 0⟩, 1 / 2)], 1⟩ 5).clusters.getD i (0, 0)).1
              (Color.BLACK, 0)).1 +
            ((expandLoop ⟨[(0, 1)], [(Color.BLACK, 1 / 2),
                (⟨1, 0, 0⟩, 1 / 2)], 1⟩ 5).palette.getD
              ((expandLoop ⟨[(0, 1)], [(Color.BLACK, 1 / 2),
                (⟨1, 0, 0⟩, 1 / 2)], 1⟩ 5).clusters.getD i (0, 0)).2
              (Color.BLACK, 0)).1) / (2 : ℝ),
           ((expandLoop ⟨[(0, 1)], [(Color.BLACK, 1 / 2),
                (⟨1, 0, 0⟩, 1 / 2)], 1⟩ 5).palette.getD
              ((expandLoop ⟨[(0, 1)], [(Color.BLACK, 1 / 2),
                (⟨1, 0, 0⟩, 1 / 2)], 1⟩ 5).clusters.getD i (0, 0)).1
              (Color.BLACK, 0)).2 +
            ((expandLoop ⟨[(0, 1)], [(Color.BLACK, 1 / 2),
                (⟨1, 0, 0⟩, 1 / 2)], 1⟩ 5).palette.getD
              ((expandLoop ⟨[(0, 1)], [(Color.BLACK, 1 / 2),
                (⟨1, 0, 0⟩, 1 / 2)], 1⟩ 5).clusters.getD i (0, 0)).2
              (Color.BLACK, 0)).2)) :=
  expand_palette_length ⟨[(0, 1)], [(Color.BLACK, 1 / 2), (⟨1, 0, 0⟩, 1 / 2)],
    1⟩ 5 (0, 0) (by simp) (by simp)

theorem color_distance_self (c : Color) : c.distance c = 0 := by
  simp [Color.distance]

theorem cluster_index_lt_of_cond (st : ExpandState) (i : ℕ)
    (hcond : EPSILON_CLUSTER <
      ((st.palette.getD (st.clusters.getD i (0, 0)).1
          (Color.BLACK, 0)).1).distance
        ((st.palette.getD (st.clusters.getD i (0, 0)).2
          (Color.BLACK, 0)).1)) :
    i < st.clusters.length := by
  by_contra hge
  push_neg at hge
  rw [List.getD_eq_default _ _ hge] at hcond
  have h1 : ((0, 0) : ℕ × ℕ).1 = ((0, 0) : ℕ × ℕ).2 := rfl
  rw [h1, color_distance_self, EPSILON_CLUSTER] at hcond
  norm_num at hcond

theorem splitStep_valid (st : ExpandState) (i : ℕ) (h : validState st) :
    validState (splitStep st i) := by
  by_cases hcond : EPSILON_CLUSTER <
      ((st.palette.getD (st.clusters.getD i (0, 0)).1
          (Color.BLACK, 0)).1).distance
        ((st.palette.getD (st.clusters.getD i (0, 0)).2
          (Color.BLACK, 0)).1)
  · have hi : i < st.clusters.length := cluster_index_lt_of_cond st i hcond
    have hclmem : st.clusters.getD i (0, 0) ∈ st.clusters := by
      rw [List.getD_eq_getElem _ _ hi]
      exact List.getElem_mem _
    obtain ⟨hne, hb1, hb2⟩ := h _ hclmem
    simp only [splitStep]
    rw [if_pos hcond]
    intro cl' hmem
    simp only [] at hmem
    rcases List.mem_append.mp hmem with hmem1 | hmem2
    · rcases List.mem_or_eq_of_mem_set hmem1 with hold | heq
      · obtain ⟨hne', hb1', hb2'⟩ := h _ hold
        refine ⟨hne', ?_, ?_⟩ <;> (dsimp only; rw [splitPal_length]; omega)
      · subst heq
        refine ⟨?_, ?_, ?_⟩ <;> (dsimp only; rw [splitPal_length]; omega)
    · rw [List.mem_singleton] at hmem2
      subst hmem2
      refine ⟨?_, ?_, ?_⟩ <;> (dsimp only; rw [splitPal_length]; omega)
  · simp only [splitStep]
    rw [if_neg hcond]
    exact h

theorem splitStep_assert (st : ExpandState) (i : ℕ) (h : validState st) :
    splitAssertOk st i := by
  simp only [splitAssertOk]
  split
  case isFalse => trivial
  case isTrue hcond =>
    have hi : i < st.clusters.length := cluster_index_lt_of_cond st i hcond
    have hclmem : st.clusters.getD i (0, 0) ∈ st.clusters := by
      rw [List.getD_eq_getElem _ _ hi]
      exact List.getElem_mem _
    obtain ⟨hne, hb1, hb2⟩ := h _ hclmem
    have hstep : splitStep st i =
        { clusters := (st.clusters.set i ((st.clusters.getD i (0, 0)).1,
            (splitPal st i).length - 2))
            ++ [((st.clusters.getD i (0, 0)).2, (splitPal st i).length - 1)],
          palette := splitPal st i,
          k := st.k + 1 } := by
      simp only [splitStep]
      rw [if_pos hcond]
    rw [hstep]
    have hsetlen : (st.clusters.set i ((st.clusters.getD i (0, 0)).1,
        (splitPal st i).length - 2)).length = st.clusters.length :=
      List.length_set _ _ _
    have hgi : ((st.clusters.set i ((st.clusters.getD i (0, 0)).1,
        (splitPal st i).length - 2))
          ++ [((st.clusters.getD i (0, 0)).2,
            (splitPal st i).length - 1)]).getD i (0, 0)
        = ((st.clusters.getD i (0, 0)).1, (splitPal st i).length - 2) := by
      rw [List.getD_append _ _ _ _ (by omega)]
      exact getD_set_self _ _ _ _ hi
    have hclen : ((st.clusters.set i ((st.clusters.getD i (0, 0)).1,
        (splitPal st i).length - 2))
          ++ [((st.clusters.getD i (0, 0)).2,
            (splitPal st i).length - 1)]).length
        = st.clusters.length + 1 := by
      simp
    have hglast : ((st.clusters.set i ((st.clusters.getD i (0, 0)).1,
        (splitPal st i).length - 2))
          ++ [((st.clusters.getD i (0, 0)).2,
            (splitPal st i).length - 1)]).getD (st.clusters.length + 1 - 1)
            (0, 0)
        = ((st.clusters.getD i (0, 0)).2, (splitPal st i).length - 1) := by
      rw [List.getD_append_right _ _ _ _ (by omega)]
      rw [hsetlen]
      simp
    have hA1 : (splitPal st i).getD (st.clusters.getD i (0, 0)).1
        (Color.BLACK, 0) = splitC1h st i := by
      rw [splitPal, List.getD_append _ _ _ _ (by simpa using hb1)]
      rw [getD_set_ne _ _ _ _ _ (Ne.symm hne)]
      exact getD_set_self _ _ _ _ hb1
    have hA2 : (splitPal st i).getD ((splitPal st i).length - 2)
        (Color.BLACK, 0) = splitC1h st i := by
      rw [splitPal_length]
      rw [splitPal, List.getD_append_right _ _ _ _ (by simp)]
      simp
    have hB1 : (splitPal st i).getD (st.clusters.getD i (0, 0)).2
        (Color.BLACK, 0) = splitC2h st i := by
      rw [splitPal, List.getD_append _ _ _ _ (by simpa using hb2)]
      exact getD_set_self _ _ _ _ (by simpa using hb2)
    have hB2 : (splitPal st i).getD ((splitPal st i).length - 1)
        (Color.BLACK, 0) = splitC2h st i := by
      rw [splitPal_length]
      rw [splitPal, List.getD_append_right _ _ _ _ (by simp)]
      simp
    refine ⟨?_, ?_⟩
    · show |((splitPal st i).getD _ (Color.BLACK, 0)).2 -
          ((splitPal st i).getD _ (Color.BLACK, 0)).2| < EPSILON_CLUSTER
      rw [hgi]
      show |((splitPal st i).getD (st.clusters.getD i (0, 0)).1
          (Color.BLACK, 0)).2 -
          ((splitPal st i).getD ((splitPal st i).length - 2)
            (Color.BLACK, 0)).2| < EPSILON_CLUSTER
      rw [hA1, hA2, sub_self, abs_zero, EPSILON_CLUSTER]
      norm_num
    · show |((splitPal st i).getD _ (Color.BLACK, 0)).2 -
          ((splitPal st i).getD _ (Color.BLACK, 0)).2| < EPSILON_CLUSTER
      rw [hclen, hglast]
      show |((splitPal st i).getD (st.clusters.getD i (0, 0)).2
          (Color.BLACK, 0)).2 -
          ((splitPal st i).getD ((splitPal st i).length - 1)
            (Color.BLACK, 0)).2| < EPSILON_CLUSTER
      rw [hB1, hB2, sub_self, abs_zero, EPSILON_CLUSTER]
      norm_num

theorem loopAsserts_of_valid :
    ∀ (l : List ℕ) (st : ExpandState), validState st → loopAssertsOk st l
    := by
  intro l
  induction l with
  | nil => intro st _; trivial
  | cons i rest ih =>
    intro st hv
    exact ⟨splitStep_assert st i hv, ih _ (splitStep_valid st i hv)⟩

/-- C6.  The sibling-probability assertions in EXPAND never fire: whenever
the split loop promotes a cluster (starting from a state whose clusters
reference distinct in-bounds palette entries), the two palette entries
referenced by each of the two resulting clusters carry equal marginal
probabilities (both halves of the same parent), so each asserted
difference is 0 < ε_cluster = 0.25 and every assertion passes, at every
iteration of the loop. -/
theorem expand_assertions_pass (st : ExpandState) (k_max : ℕ)
    (h : validState st) :
    loopAssertsOk st (List.range (min st.k k_max)) :=
  loopAsserts_of_valid (List.range (min st.k k_max)) st h

/-- Witness for C6 at a concrete state: one cluster `(0,1)` over a
two-entry palette whose colors are 1 apart (so the split fires). -/
theorem expand_assertions_pass_witness :
    loopAssertsOk ⟨[(0, 1)], [(Color.BLACK, 1 / 2), (⟨1, 0, 0⟩, 1 / 2)], 1⟩
      (List.range (min
        (⟨[(0, 1)], [(Color.BLACK, 1 / 2), (⟨1, 0, 0⟩, 1 / 2)], 1⟩ :
          ExpandState).k 5)) :=
  expand_assertions_pass
    ⟨[(0, 1)], [(Color.BLACK, 1 / 2), (⟨1, 0, 0⟩, 1 / 2)], 1⟩ 5
    (by
      intro cl hcl
      simp only [List.mem_singleton] at hcl
      subst hcl
      refine ⟨by decide, ?_, ?_⟩ <;> simp)

theorem colorSymbolMapAux_length :
    ∀ (colors : List (ℕ × ℕ × ℕ)) (start : ℕ),
      (colorSymbolMapAux start colors).length = colors.length := by
  intro colors
  induction colors with
  | nil => intro start; rfl
  | cons c rest ih =>
    intro start
    rw [colorSymbolMapAux, List.length_cons, List.length_cons, ih]

theorem colorSymbolMapAux_snd :
    ∀ (colors : List (ℕ × ℕ × ℕ)) (start n : ℕ), n < colors.length →
      ((colorSymbolMapAux start colors).getD n ((0, 0, 0), none)).2 =
        SYMBOLS[start + n]? := by
  intro colors
  induction colors with
  | nil => intro start n h; simp at h
  | cons c rest ih =>
    intro start n h
    cases n with
    | zero =>
      rw [colorSymbolMapAux, List.getD_cons_zero]
      simp
    | succ m =>
      rw [colorSymbolMapAux, List.getD_cons_succ,
        ih (start + 1) m (by simpa using h)]
      congr 1
      omega

theorem colorSymbolMapAux_mem_snd :
    ∀ (colors : List (ℕ × ℕ × ℕ)) (start : ℕ)
      (e : (ℕ × ℕ × ℕ) × Option Char), e ∈ colorSymbolMapAux start colors →
      ∃ idx, idx < start + colors.length ∧ start ≤ idx ∧
        e.2 = SYMBOLS[idx]? := by
  intro colors
  induction colors with
  | nil => intro start e h; simp [colorSymbolMapAux] at h
  | cons c rest ih =>
    intro start e h
    rw [colorSymbolMapAux] at h
    rcases List.mem_cons.mp h with rfl | h
    · exact ⟨start, by simp, le_refl _, rfl⟩
    · obtain ⟨idx, h1, h2, h3⟩ := ih (start + 1) e h
      refine ⟨idx, ?_, by omega, h3⟩
      rw [List.length_cons]
      omega

/-- C10 (implicit).  The symbol assignment of the pattern composer is only
defined for at most 200 distinct non-white colors: the `SYMBOLS` alphabet
has exactly 200 entries and is indexed by sorted color index without any
bounds guard, so with at most 200 colors every color receives a symbol,
and with more than 200 some color's lookup falls outside the alphabet (the
Rust indexing panics, modelled by `none`). -/
theorem symbol_assignment_bound :
    SYMBOLS.length = 200 ∧
    (∀ colors : List (ℕ × ℕ × ℕ), colors.length ≤ 200 →
      ∀ e ∈ colorSymbolMap colors, e.2.isSome) ∧
    (∀ colors : List (ℕ × ℕ × ℕ), 200 < colors.length →
      ∃ e ∈ colorSymbolMap colors, e.2 = none) := by
  have hsym : SYMBOLS.length = 200 := by rfl
  refine ⟨hsym, ?_, ?_⟩
  · intro colors hle e he
    obtain ⟨idx, h1, -, h3⟩ := colorSymbolMapAux_mem_snd colors 0 e he
    rw [h3]
    have hidx : idx < SYMBOLS.length := by omega
    rw [List.getElem?_eq_getElem hidx]
    rfl
  · intro colors hgt
    refine ⟨(colorSymbolMapAux 0 colors).getD 200 ((0, 0, 0), none),
      ?_, ?_⟩
    · rw [List.getD_eq_getElem _ _ (by rw [colorSymbolMapAux_length]; omega)]
      exact List.getElem_mem _
    · rw [colorSymbolMapAux_snd colors 0 200 (by omega)]
      exact List.getElem?_eq_none_iff.mpr (by omega)

/-- Witness for C10: a single color gets a symbol; a 201-color list
overruns the alphabet. -/
theorem symbol_assignment_bound_witness :
    (∀ e ∈ colorSymbolMap [(0, 0, 0)], e.2.isSome) ∧
    (∃ e ∈ colorSymbolMap (List.replicate 201 (0, 0, 0)), e.2 = none) :=
  ⟨symbol_assignment_bound.2.1 [(0, 0, 0)] (by simp),
   symbol_assignment_bound.2.2 (List.replicate 201 (0, 0, 0))
     (by rw [List.length_replicate]; omega)⟩

/-- C9.  In the pattern composer, every input pixel with alpha 0 is
recolored to opaque white (255,255,255,255) before DMC snapping and
histogramming (for any nearest-color map), white is excluded from the
color histogram, and white cells never receive a glyph on overlay
pages. -/
theorem transparent_and_white_handling :
    (∀ (nearest : ℕ × ℕ × ℕ → ℕ × ℕ × ℕ) (p : ℕ × ℕ × ℕ × ℕ),
      p.2.2.2 = 0 → recolorPixel nearest p = (255, 255, 255, 255)) ∧
    (∀ pixels : List (ℕ × ℕ × ℕ), (255, 255, 255) ∉ histogramKeys pixels) ∧
    (∀ (pixels : List ((ℕ × ℕ) × (ℕ × ℕ × ℕ)))
      (pc : (ℕ × ℕ) × (ℕ × ℕ × ℕ)), pc.2 = (255, 255, 255) →
      pc ∉ overlayGlyphCells pixels) := by
  refine ⟨?_, ?_, ?_⟩
  · intro nearest p hp
    rw [recolorPixel, if_pos hp]
  · intro pixels hmem
    rw [histogramKeys, List.mem_dedup, List.mem_filter] at hmem
    simp at hmem
  · intro pixels pc hwhite hmem
    rw [overlayGlyphCells, List.mem_filter] at hmem
    have := hmem.2
    rw [hwhite] at this
    simp at this

/-- Witness for C9 at concrete pixels. -/
theorem transparent_and_white_handling_witness :
    recolorPixel id (7, 8, 9, 0) = (255, 255, 255, 255) ∧
    (255, 255, 255) ∉ histogramKeys [(255, 255, 255), (1, 2, 3)] ∧
    ((0, 0), (255, 255, 255)) ∉
      overlayGlyphCells [((0, 0), (255, 255, 255))] :=
  ⟨transparent_and_white_handling.1 id (7, 8, 9, 0) rfl,
   transparent_and_white_handling.2.1 [(255, 255, 255), (1, 2, 3)],
   transparent_and_white_handling.2.2 [((0, 0), (255, 255, 255))]
     ((0, 0), (255, 255, 255)) rfl⟩

theorem length_flatMap_const {α β : Type} (l : List α) (f : α → List β)
    (n : ℕ) (h : ∀ a ∈ l, (f a).length = n) :
    (l.flatMap f).length = l.length * n := by
  induction l with
  | nil => simp
  | cons x xs ih =>
    rw [List.flatMap_cons, List.length_append, h x (List.mem_cons_self _ _),
      ih fun a ha => h a (List.mem_cons_of_mem _ ha), List.length_cons]
    ring

theorem subDivideImages_length (w h : ℕ) :
    (subDivideImages w h).length =
      (h / 70 + (if h % 70 ≠ 0 then 1 else 0)) *
        (w / 50 + (if w % 50 ≠ 0 then 1 else 0)) := by
  rw [subDivideImages]
  rw [length_flatMap_const _ _
    (w / OUTPUT_STITCH_SIZE.1 +
      if w % OUTPUT_STITCH_SIZE.1 ≠ 0 then 1 else 0)
    (fun a _ => by rw [List.length_map, List.length_range])]
  rw [List.length_range]
  rfl

theorem subDivideImages_mem_iff (w h : ℕ) (t : (ℕ × ℕ) × (ℕ × ℕ)) :
    t ∈ subDivideImages w h ↔
      ∃ i j, i < w / 50 + (if w % 50 ≠ 0 then 1 else 0) ∧
        j < h / 70 + (if h % 70 ≠ 0 then 1 else 0) ∧
        t = ((if w < i * 50 + 50 then w % 50 else 50,
              if h < j * 70 + 70 then h % 70 else 70), (i, j)) := by
  show t ∈ (List.range _).flatMap _ ↔ _
  rw [List.mem_flatMap]
  constructor
  · rintro ⟨j, hj, ht⟩
    rw [List.mem_range] at hj
    rw [List.mem_map] at ht
    obtain ⟨i, hi, rfl⟩ := ht
    rw [List.mem_range] at hi
    exact ⟨i, j, hi, hj, rfl⟩
  · rintro ⟨i, j, hi, hj, rfl⟩
    refine ⟨j, List.mem_range.mpr hj, List.mem_map.mpr
      ⟨i, List.mem_range.mpr hi, rfl⟩⟩

theorem legendPages_ceil (c : ℕ) (hc : 69 < c) :
    (legendPages c : ℤ) = ⌈((c : ℚ) - 69) / 75⌉ + 1 := by
  rw [legendPages, if_neg (by omega)]
  have hcast : ((c : ℚ) - 69) = ((c - 69 : ℕ) : ℚ) := by
    rw [Nat.cast_sub (by omega : 69 ≤ c)]
    norm_num
  rw [hcast]
  set m := c - 69 with hm
  set q := (m + 74) / 75 with hq
  have hdm := Nat.div_add_mod (m + 74) 75
  have hmod : (m + 74) % 75 < 75 := Nat.mod_lt _ (by norm_num)
  have hn1 : 75 * q ≤ m + 74 := by omega
  have hn2 : m + 74 < 75 * q + 75 := by omega
  have hceil : ⌈(m : ℚ) / 75⌉ = (q : ℤ) := by
    rw [Int.ceil_eq_iff]
    constructor
    · rw [lt_div_iff₀ (by norm_num : (0 : ℚ) < 75)]
      have h75 : ((75 * q : ℕ) : ℚ) ≤ ((m + 74 : ℕ) : ℚ) := by
        exact_mod_cast hn1
      push_cast at h75 ⊢
      linarith
    · rw [div_le_iff₀ (by norm_num : (0 : ℚ) < 75)]
      have hn3 : m ≤ 75 * q := by omega
      have h75 : ((m : ℕ) : ℚ) ≤ ((75 * q : ℕ) : ℚ) := by exact_mod_cast hn3
      push_cast at h75 ⊢
      linarith
  rw [hceil]
  push_cast
  ring

theorem tile_partition (w h : ℕ) (p : ℕ × ℕ) (hp1 : p.1 < w)
    (hp2 : p.2 < h) :
    ∃! t, t ∈ subDivideImages w h ∧ tileContains t p := by
  refine ⟨((if w < p.1 / 50 * 50 + 50 then w % 50 else 50,
            if h < p.2 / 70 * 70 + 70 then h % 70 else 70),
           (p.1 / 50, p.2 / 70)), ⟨?_, ?_⟩, ?_⟩
  · rw [subDivideImages_mem_iff]
    refine ⟨p.1 / 50, p.2 / 70, ?_, ?_, rfl⟩ <;> (split <;> omega)
  · simp only [tileContains, OUTPUT_STITCH_SIZE]
    refine ⟨?_, ?_, ?_, ?_⟩ <;> (try split) <;> omega
  · rintro t' ⟨hmem, hcont⟩
    rw [subDivideImages_mem_iff] at hmem
    obtain ⟨i, j, hi, hj, rfl⟩ := hmem
    simp only [tileContains, OUTPUT_STITCH_SIZE] at hcont
    obtain ⟨a1, a2, a3, a4⟩ := hcont
    have hieq : i = p.1 / 50 := by
      split at a2 <;> omega
    have hjeq : j = p.2 / 70 := by
      split at a4 <;> omega
    subst hieq
    subst hjeq
    rfl

/-- C7.  The pattern composer's total page count is `3 + L + (number of
tiles)`: the tiles of `sub_divide_images` partition the image into 50×70
pages (partial tiles at right/bottom; each pixel lies in exactly one
tile), the legend page count `L` is 1 when the number of distinct
non-white colors is at most 69 and `⌈(colors − 69)/75⌉ + 1` otherwise, and
a 120×140 image with 80 distinct colors yields `3 + 2 + 6 = 11` pages. -/
theorem composer_page_count :
    (∀ w h c, totalPages w h c
      = 3 + legendPages c + (subDivideImages w h).length) ∧
    (∀ c, c ≤ 69 → legendPages c = 1) ∧
    (∀ c, 69 < c → (legendPages c : ℤ) = ⌈((c : ℚ) - 69) / 75⌉ + 1) ∧
    (∀ w h, (subDivideImages w h).length =
      (h / 70 + (if h % 70 ≠ 0 then 1 else 0)) *
        (w / 50 + (if w % 50 ≠ 0 then 1 else 0))) ∧
    (∀ (w h : ℕ) (p : ℕ × ℕ), p.1 < w → p.2 < h →
      ∃! t, t ∈ subDivideImages w h ∧ tileContains t p) ∧
    totalPages 120 140 80 = 11 :=
  ⟨fun _ _ _ => rfl,
   fun c hc => by rw [legendPages, if_pos hc],
   legendPages_ceil,
   subDivideImages_length,
   tile_partition,
   by rfl⟩

/-- Witness for C7 at concrete inputs: the 69 / 80-color legend cases and
the pixel (60, 80) of the 120×140 image. -/
theorem composer_page_count_witness :
    legendPages 69 = 1 ∧
    ((legendPages 80 : ℤ) = ⌈((80 : ℚ) - 69) / 75⌉ + 1) ∧
    (∃! t, t ∈ subDivideImages 120 140 ∧ tileContains t (60, 80)) :=
  ⟨composer_page_count.2.1 69 (by norm_num),
   composer_page_count.2.2.1 80 (by norm_num),
   composer_page_count.2.2.2.2.1 120 140 (60, 80) (by decide) (by decide)⟩

end PixelartGen
